import Mathlib

/-!
Shallow embedding of the claude-loop-runner sources (state.rs, process.rs,
git.rs, runner.rs, main.rs, pools/verify.rs) and proofs about the claims of
its specification.  Rust strings and paths are modelled as `List Char`;
`HashMap<PathBuf, FileState>` as an association list with unique keys;
fallible subprocess calls as explicit outcome values.
-/

namespace ClaudeLoop

/-- Rust strings / paths are modelled as lists of characters. -/
abbrev Str := List Char

/-! ### Generic string helpers mirroring Rust `str` methods -/

/-- Split a character list at every occurrence of `sep` (like Rust
`str::split(sep)`): always returns at least one (possibly empty) piece. -/
def splitChar (sep : Char) : Str → List Str
  | [] => [[]]
  | c :: rest =>
    if c = sep then [] :: splitChar sep rest
    else
      match splitChar sep rest with
      | [] => [[c]]
      | l :: ls => (c :: l) :: ls

/-- Rust `str::trim`: drop whitespace from both ends. -/
def rustTrim (l : Str) : Str :=
  ((l.dropWhile Char.isWhitespace).reverse.dropWhile Char.isWhitespace).reverse

/-- Rust `str::strip_prefix`: the remainder after the given leading string,
or `none` when it does not lead. -/
def stripPre? : Str → Str → Option Str
  | [], l => some l
  | _ :: _, [] => none
  | a :: p, b :: l => if a = b then stripPre? p l else none

/-- Rust `str::strip_suffix`, via `stripPre?` on the reversed lists. -/
def stripSuf? (suf l : Str) : Option Str :=
  (stripPre? suf.reverse l.reverse).map List.reverse

/-- Rust `str::contains` (substring containment). -/
def listContains : Str → Str → Bool
  | [], nd => nd.isEmpty
  | c :: t, nd => List.isPrefixOf nd (c :: t) || listContains t nd

theorem listContains_iff (hay nd : Str) : listContains hay nd = true ↔ nd <:+: hay := by
  induction hay with
  | nil =>
    simp [listContains, List.isEmpty_iff]
  | cons c t ih =>
    simp only [listContains, Bool.or_eq_true, List.isPrefixOf_iff_prefix, ih]
    exact (List.infix_cons_iff).symm

/-! ### JSON values and parsed results (types.rs)

`serde_json::Value` is modelled as an opaque tree; numbers are abstracted to
integers since no claim depends on numeric semantics. -/

inductive Json where
  | null : Json
  | bool (b : Bool) : Json
  | num (n : Int) : Json
  | str (s : Str) : Json
  | arr (xs : List Json) : Json
  | obj (fields : List (Str × Json)) : Json

/-- ParsedResult from types.rs: the value and whether it is a raw string. -/
structure ParsedResult where
  value : Json
  is_raw : Bool

/-- FileStatus from types.rs. -/
inductive FileStatus where
  | pending
  | promptInProgress
  | awaitingVerification
  | verifyInProgress
  | fixupInProgress
  | completed
  | failed
deriving DecidableEq

/-- FileState from types.rs. -/
structure FileState where
  status : FileStatus
  original_data : Json
  result_data : Option Json
  result_data_raw : Option Bool
  attempts : Nat
  last_error : Option Str

/-- FileState::new from types.rs. -/
def FileState.new (original_data : Json) : FileState :=
  ⟨FileStatus.pending, original_data, none, none, 0, none⟩

/-! ### process.rs -/

/-- Rust `str::lines`: split on newline, drop a final empty piece, and strip
one trailing carriage return from each line. -/
def rustLines (s : Str) : List Str :=
  let ps := splitChar '\n' s
  let ps := if ps.getLast? = some [] then ps.dropLast else ps
  ps.map fun l => if l.getLast? = some '\r' then l.dropLast else l

/-- The qualifying payload of one stdout line in `parse_result`: trim the
line, strip the leading result marker, trim the remainder, and reject an
empty remainder (processing then continues with earlier lines). -/
def lineResult? (line : Str) : Option Str :=
  match stripPre? ("RESULT:".toList) (rustTrim line) with
  | none => none
  | some suf =>
    let s := rustTrim suf
    if s = [] then none else some s

/-- The bottom-to-top scan of `parse_result` over the (already reversed)
line list, parameterised by the JSON parser `pj`. -/
def parseResultAux (pj : Str → Option Json) : List Str → ParsedResult
  | [] => ⟨Json.null, false⟩
  | line :: rest =>
    match lineResult? line with
    | none => parseResultAux pj rest
    | some s =>
      match pj s with
      | some v => ⟨v, false⟩
      | none => ⟨Json.str s, true⟩

/-- parse_result from process.rs, with the JSON parser abstracted as `pj`
(the claims hold for every parser). -/
def parse_result (pj : Str → Option Json) (stdout : Str) : ParsedResult :=
  parseResultAux pj (rustLines stdout).reverse

/-- Rust `Path::file_name` on our string model of paths: the last
path component that is a normal component. -/
def fileName? (p : Str) : Option Str :=
  let cs := (splitChar '/' p).filter fun c => decide (c ≠ [] ∧ c ≠ ['.'])
  match cs.getLast? with
  | none => none
  | some l => if l = ['.', '.'] then none else some l

/-- Split a character list at its last dot, if any. -/
def splitAtLastDot : Str → Option (Str × Str)
  | [] => none
  | c :: rest =>
    match splitAtLastDot rest with
    | some (b, a) => some (c :: b, a)
    | none => if c = '.' then some ([], rest) else none

/-- The stem of a file name (Rust `Path::file_stem` on the file name): the
portion before the last dot, where a leading dot does not count. -/
def stemOfName : Str → Str
  | [] => []
  | c :: rest =>
    match splitAtLastDot rest with
    | none => c :: rest
    | some (b, _) => c :: b

/-- Rust `Path::file_stem` on our path model. -/
def fileStem? (p : Str) : Option Str :=
  (fileName? p).map stemOfName

/-- extract_file_stem from process.rs: the file stem with a trailing
`.test` or `.spec` suffix stripped. -/
def extract_file_stem (p : Str) : Str :=
  let stem := (fileStem? p).getD []
  match stripSuf? (".test".toList) stem with
  | some s => s
  | none =>
    match stripSuf? (".spec".toList) stem with
    | some s => s
    | none => stem

/-- Rust `str::strip_suffix('*')` used by matches_allowlist. -/
def stripStar? (pat : Str) : Option Str :=
  match pat.reverse with
  | [] => none
  | c :: rest => if c = '*' then some rest.reverse else none

/-- The normal components of a path (Rust `Path::components`, keeping only
`Component::Normal`). -/
def rustComponents (p : Str) : List Str :=
  (splitChar '/' p).filter fun c => decide (c ≠ [] ∧ c ≠ ['.'] ∧ c ≠ ['.', '.'])

/-- matches_allowlist from process.rs. -/
def matches_allowlist (path pat : Str) : Bool :=
  match stripStar? pat with
  | some pre =>
    ((rustComponents path).any fun c => List.isPrefixOf pre c) || listContains path pre
  | none => listContains path pat

/-! ### git.rs -/

/-- GitState from git.rs (the fields the classification uses): the baseline
dirty set captured before the run, and the global allowlist pattern list. -/
structure GitState where
  pre_existing_dirty_files : List Str
  global_allowlist_patterns : List Str

/-- GitState::matches_global_allowlist from git.rs. -/
def matches_global_allowlist (g : GitState) (path : Str) : Bool :=
  g.global_allowlist_patterns.any fun pat => matches_allowlist path pat

/-- check_git_changes_filtered from git.rs, on the current dirty set (given
as the iteration order of the Rust `HashSet`): returns
(allowed, unauthorized). -/
def check_git_changes_filtered (aPat : Str) (g : GitState) : List Str → List Str × List Str
  | [] => ([], [])
  | path :: rest =>
    let prev := check_git_changes_filtered aPat g rest
    if path ∈ g.pre_existing_dirty_files then prev
    else if matches_allowlist path aPat || matches_global_allowlist g path then
      (path :: prev.1, prev.2)
    else (prev.1, path :: prev.2)

/-- The related-file selection of commit_file_changes from git.rs: keep the
dirty entries whose path contains the source file's raw `file_stem()`
(note: computed directly with `Path::file_stem`, without test-suffix
stripping) or that equal the source path. -/
def commit_related_files (file_path : Str) (dirty_files : List Str) : List Str :=
  let file_stem := (fileStem? file_path).getD []
  dirty_files.filter fun p => listContains p file_stem || decide (p = file_path)

/-- The selection commit_file_changes is specified to make (spec §4.5 and the
canonical choice of §7): same filter but with extract_file_stem, i.e. with
the `.test`/`.spec` suffix stripped from the stem. -/
def commit_related_files_stripped (file_path : Str) (dirty_files : List Str) : List Str :=
  let file_stem := extract_file_stem file_path
  dirty_files.filter fun p => listContains p file_stem || decide (p = file_path)

/-- The commit message built by commit_file_changes from git.rs. -/
def commit_message (file_path : Str) (task_description : Option Str) : Str :=
  let file_name := (fileName? file_path).getD file_path
  match task_description with
  | some desc =>
      "claude-loop: ".toList ++ file_name ++ " (".toList ++ desc ++ ")".toList
  | none => "claude-loop: ".toList ++ file_name

/-! ### state.rs -/

/-- The `files` map of State, as an association list with unique keys. -/
abbrev Files := List (Str × FileState)

/-- Lookup in the files map (`HashMap::get`). -/
def lookupFile : Files → Str → Option FileState
  | [], _ => none
  | (q, f) :: rest, p => if q = p then some f else lookupFile rest p

/-- State::merge_input_file from state.rs: for each input entry, insert a
fresh pending record unless the path is already present
(`entry(path).or_insert_with(FileState::new)`). -/
def merge_input_file : Files → List (Str × Json) → Files
  | files, [] => files
  | files, pd :: rest =>
    merge_input_file
      (if (lookupFile files pd.1).isSome then files
       else files ++ [(pd.1, FileState.new pd.2)])
      rest

/-- Modify the record stored under a key, if present (`HashMap::get_mut`). -/
def modifyFile (fs : Files) (p : Str) (g : FileState → FileState) : Files :=
  fs.map fun e => if e.1 = p then (e.1, g e.2) else e

/-- State::update_status from state.rs. -/
def update_status (fs : Files) (p : Str) (st : FileStatus) : Files :=
  modifyFile fs p fun f => { f with status := st }

/-- State::set_result from state.rs. -/
def set_result (fs : Files) (p : Str) (r : ParsedResult) : Files :=
  modifyFile fs p fun f =>
    { f with
      result_data := some r.value
      result_data_raw := if r.is_raw then some true else none }

/-- State::increment_attempts from state.rs. -/
def increment_attempts (fs : Files) (p : Str) : Files :=
  modifyFile fs p fun f => { f with attempts := f.attempts + 1 }

/-- State::get_attempts from state.rs. -/
def get_attempts (fs : Files) (p : Str) : Nat :=
  ((lookupFile fs p).map fun f => f.attempts).getD 0

/-- State::set_error from state.rs. -/
def set_error (fs : Files) (p : Str) (err : Str) : Files :=
  modifyFile fs p fun f => { f with last_error := some err }

/-- StateSummary from state.rs. -/
structure StateSummary where
  total : Nat
  pending : Nat
  prompt_in_progress : Nat
  awaiting_verification : Nat
  verify_in_progress : Nat
  fixup_in_progress : Nat
  completed : Nat
  failed : Nat

/-- State::get_summary from state.rs, over the values of the files map. -/
def get_summary : List FileState → StateSummary
  | [] => ⟨0, 0, 0, 0, 0, 0, 0, 0⟩
  | f :: rest =>
    match f.status with
    | FileStatus.pending =>
        { get_summary rest with
          pending := (get_summary rest).pending + 1
          total := (get_summary rest).total + 1 }
    | FileStatus.promptInProgress =>
        { get_summary rest with
          prompt_in_progress := (get_summary rest).prompt_in_progress + 1
          total := (get_summary rest).total + 1 }
    | FileStatus.awaitingVerification =>
        { get_summary rest with
          awaiting_verification := (get_summary rest).awaiting_verification + 1
          total := (get_summary rest).total + 1 }
    | FileStatus.verifyInProgress =>
        { get_summary rest with
          verify_in_progress := (get_summary rest).verify_in_progress + 1
          total := (get_summary rest).total + 1 }
    | FileStatus.fixupInProgress =>
        { get_summary rest with
          fixup_in_progress := (get_summary rest).fixup_in_progress + 1
          total := (get_summary rest).total + 1 }
    | FileStatus.completed =>
        { get_summary rest with
          completed := (get_summary rest).completed + 1
          total := (get_summary rest).total + 1 }
    | FileStatus.failed =>
        { get_summary rest with
          failed := (get_summary rest).failed + 1
          total := (get_summary rest).total + 1 }

/-! ### main.rs and runner.rs -/

/-- The end-of-run completion test in main.rs (lines 209-220): the registry
entry is marked completed when pending, prompt_in_progress and
verify_in_progress are all zero. -/
def taskCompletionCheck (files : List FileState) : Bool :=
  let summary := get_summary files
  summary.pending == 0 && summary.prompt_in_progress == 0 &&
    summary.verify_in_progress == 0

/-- The fields of Config (config.rs) used by the pool spawning code. -/
structure ConfigM where
  concurrency : Nat
  verify_concurrency : Option Nat
  max_retries : Nat

/-- spawn_verify_pool from pools/verify.rs: one worker per id in
`0..concurrency`. -/
def spawn_verify_pool_ids (concurrency : Nat) : List Nat :=
  List.range concurrency

/-- The verify-pool spawn in runner.rs `run` (lines 63-70): the pool size
argument passed is `config.concurrency`. -/
def runner_verify_handles (config : ConfigM) : List Nat :=
  spawn_verify_pool_ids config.concurrency

/-! ### pools/verify.rs: the per-task verify/fixup loop

The subprocess outcomes of one task are abstracted as a list: for each inner
iteration, the verify command either fails to execute, exits 0, or exits
non-zero with an error output; after a non-final failure, the fixup
subprocess either errors or returns stdout whose parse is the given
ParsedResult. -/

inductive FixupResult where
  | fixErr (e : Str)
  | fixOk (r : ParsedResult)

inductive VerifyOutcome where
  | execError (e : Str)
  | pass
  | fail (err : Str) (fix : FixupResult)

/-- The inner loop of verify_worker from pools/verify.rs, acting on the
task's FileState record exactly as the state-store calls do. -/
def runVerifyLoop (max_retries : Nat) : List VerifyOutcome → FileState → FileState
  | [], f => f
  | o :: rest, f =>
    let f1 := { f with status := FileStatus.verifyInProgress }
    match o with
    | VerifyOutcome.execError e =>
        { f1 with status := FileStatus.failed, last_error := some e }
    | VerifyOutcome.pass => { f1 with status := FileStatus.completed }
    | VerifyOutcome.fail err fix =>
      let f2 := { f1 with attempts := f1.attempts + 1 }
      if f2.attempts ≥ max_retries then
        { f2 with status := FileStatus.failed, last_error := some err }
      else
        let f3 := { f2 with status := FileStatus.fixupInProgress }
        match fix with
        | FixupResult.fixErr e =>
            { f3 with status := FileStatus.failed, last_error := some e }
        | FixupResult.fixOk r =>
            runVerifyLoop max_retries rest
              { f3 with
                result_data := some r.value
                result_data_raw := if r.is_raw then some true else none }

/-- Observable scheduling events of a verify worker. -/
inductive WEvent where
  | memCheck
  | verifyRun
  | fixupRun
deriving DecidableEq

/-- The event trace of the inner verify/fixup loop of verify_worker
(pools/verify.rs lines 117-340): each iteration runs the verify command,
and on a non-final failure runs the fixup subprocess; the memory-pressure
flag is never consulted inside this loop. -/
def verifyLoopTrace (max_retries : Nat) : List VerifyOutcome → Nat → List WEvent
  | [], _ => []
  | o :: rest, attempts =>
    WEvent.verifyRun ::
      match o with
      | VerifyOutcome.execError _ => []
      | VerifyOutcome.pass => []
      | VerifyOutcome.fail _ fix =>
        if attempts + 1 ≥ max_retries then []
        else
          WEvent.fixupRun ::
            match fix with
            | FixupResult.fixErr _ => []
            | FixupResult.fixOk _ => verifyLoopTrace max_retries rest (attempts + 1)

/-- The per-task event trace of verify_worker (pools/verify.rs lines
104-341): the memory-pressure flag is checked once when the task is
received, before entering the inner loop. -/
def verify_worker_task_trace (max_retries : Nat) (outs : List VerifyOutcome)
    (attempts0 : Nat) : List WEvent :=
  WEvent.memCheck :: verifyLoopTrace max_retries outs attempts0

/-! ### Helper lemmas -/

theorem parseResultAux_eq (pj : Str → Option Json) (l : List Str) :
    parseResultAux pj l =
      match (l.filterMap lineResult?).head? with
      | none => ⟨Json.null, false⟩
      | some s =>
        match pj s with
        | some v => ⟨v, false⟩
        | none => ⟨Json.str s, true⟩ := by
  induction l with
  | nil => rfl
  | cons line rest ih =>
    simp only [parseResultAux, List.filterMap_cons]
    cases h : lineResult? line with
    | none => simpa [h] using ih
    | some s => simp [h]

theorem lookupFile_append_single (fs : Files) (q : Str) (x : FileState) (p : Str) :
    lookupFile (fs ++ [(q, x)]) p =
      match lookupFile fs p with
      | some f => some f
      | none => if q = p then some x else none := by
  induction fs with
  | nil => rfl
  | cons e rest ih =>
    obtain ⟨k, v⟩ := e
    simp only [List.cons_append, lookupFile]
    by_cases h : k = p
    · simp [h]
    · simp [h, ih]

theorem merge_input_file_lookup (input : List (Str × Json)) :
    ∀ (fs : Files) (p : Str),
      lookupFile (merge_input_file fs input) p =
        match lookupFile fs p with
        | some f => some f
        | none =>
            ((input.find? fun qd => decide (qd.1 = p)).map fun qd => FileState.new qd.2) := by
  induction input with
  | nil =>
    intro fs p
    cases h : lookupFile fs p <;> simp [merge_input_file, h]
  | cons qd rest ih =>
    intro fs p
    simp only [merge_input_file]
    by_cases h1 : (lookupFile fs qd.1).isSome
    · rw [if_pos h1, ih]
      cases h : lookupFile fs p with
      | some f => simp
      | none =>
        have hqp : ¬(qd.1 = p) := by
          intro he; rw [he, h] at h1; simp at h1
        simp [List.find?_cons, hqp]
    · rw [if_neg h1, ih]
      rw [lookupFile_append_single]
      cases h : lookupFile fs p with
      | some f => simp
      | none =>
        by_cases hqp : qd.1 = p
        · simp [List.find?_cons, hqp]
        · simp [List.find?_cons, hqp]

theorem merge_input_file_all_present (input : List (Str × Json)) :
    ∀ fs : Files, (∀ qd ∈ input, (lookupFile fs qd.1).isSome) →
      merge_input_file fs input = fs := by
  induction input with
  | nil => intro fs _; rfl
  | cons qd rest ih =>
    intro fs h
    simp only [merge_input_file, if_pos (h qd (List.mem_cons_self qd rest))]
    exact ih fs fun e he => h e (List.mem_cons_of_mem qd he)

theorem modifyFile_of_missing (fs : Files) (p : Str) (g : FileState → FileState) :
    lookupFile fs p = none → modifyFile fs p g = fs := by
  induction fs with
  | nil => intro _; rfl
  | cons e rest ih =>
    obtain ⟨k, v⟩ := e
    intro h
    simp only [lookupFile] at h
    by_cases hk : k = p
    · simp [hk] at h
    · simp only [modifyFile, List.map] at ih ⊢
      rw [if_neg hk] at h ⊢
      simp [ih h]

theorem memCheck_not_in_verifyLoopTrace (mr : Nat) (outs : List VerifyOutcome) :
    ∀ a0 : Nat, WEvent.memCheck ∉ verifyLoopTrace mr outs a0 := by
  induction outs with
  | nil => intro a0; simp [verifyLoopTrace]
  | cons o rest ih =>
    intro a0
    cases o with
    | execError e => simp [verifyLoopTrace]
    | pass => simp [verifyLoopTrace]
    | fail err fix =>
      simp only [verifyLoopTrace, List.mem_cons]
      rintro (h | h)
      · exact WEvent.noConfusion h
      · revert h
        split
        · simp
        · cases fix with
          | fixErr e => simp
          | fixOk r =>
            intro h
            rcases List.mem_cons.mp h with h' | h'
            · exact WEvent.noConfusion h'
            · exact ih (a0 + 1) h'

/-! ### Claim theorems -/

/-- C7: for every stdout string (and every JSON parser), parse_result
returns the parse of the lexically last line whose trimmed form starts with
the result marker and whose trimmed suffix is non-empty: JSON success gives
(value, raw = false), failure gives the suffix as a raw string; lines with
an empty suffix are skipped, and with no qualifying line the result is
(null, raw = false). -/
theorem parse_result_last_wins (pj : Str → Option Json) (stdout : Str) :
    parse_result pj stdout =
      match ((rustLines stdout).filterMap lineResult?).getLast? with
      | none => ⟨Json.null, false⟩
      | some s =>
        match pj s with
        | some v => ⟨v, false⟩
        | none => ⟨Json.str s, true⟩ := by
  unfold parse_result
  rw [parseResultAux_eq, List.filterMap_reverse, List.head?_reverse]

/-- C8: matches_allowlist returns true exactly when: for a pattern ending in
a star, some normal path component starts with the star-stripped stem or the
full path contains it as a substring; otherwise, when the full path contains
the pattern as a substring. -/
theorem matches_allowlist_characterization (path pat : Str) :
    matches_allowlist path pat = true ↔
      (match stripStar? pat with
       | some pre => (∃ c ∈ rustComponents path, pre <+: c) ∨ pre <:+: path
       | none => pat <:+: path) := by
  unfold matches_allowlist
  cases stripStar? pat with
  | none => exact listContains_iff path pat
  | some pre =>
    simp [List.any_eq_true, listContains_iff, List.isPrefixOf_iff_prefix]

/-- C6: classification never touches the baseline dirty set, marks as
unauthorized exactly the new dirty paths matching neither the worker's
pattern nor any global allowlist pattern, and marks the remaining new dirty
paths as allowed. -/
theorem classification_membership (aPat : Str) (g : GitState) (current : List Str) (p : Str) :
    (p ∈ (check_git_changes_filtered aPat g current).2 ↔
       p ∈ current ∧ p ∉ g.pre_existing_dirty_files ∧
         matches_allowlist p aPat = false ∧
         ∀ pat ∈ g.global_allowlist_patterns, matches_allowlist p pat = false) ∧
    (p ∈ (check_git_changes_filtered aPat g current).1 ↔
       p ∈ current ∧ p ∉ g.pre_existing_dirty_files ∧
         (matches_allowlist p aPat = true ∨
           ∃ pat ∈ g.global_allowlist_patterns, matches_allowlist p pat = true)) := by
  have key : ∀ current : List Str,
      (p ∈ (check_git_changes_filtered aPat g current).2 ↔
         p ∈ current ∧ p ∉ g.pre_existing_dirty_files ∧
           (matches_allowlist p aPat || matches_global_allowlist g p) = false) ∧
      (p ∈ (check_git_changes_filtered aPat g current).1 ↔
         p ∈ current ∧ p ∉ g.pre_existing_dirty_files ∧
           (matches_allowlist p aPat || matches_global_allowlist g p) = true) := by
    intro current
    induction current with
    | nil => simp [check_git_changes_filtered]
    | cons q rest ih =>
      simp only [check_git_changes_filtered]
      by_cases h1 : q ∈ g.pre_existing_dirty_files
      · rw [if_pos h1]
        constructor
        · rw [ih.1]
          constructor
          · rintro ⟨hm, hp, hc⟩; exact ⟨List.mem_cons_of_mem q hm, hp, hc⟩
          · rintro ⟨hm, hp, hc⟩
            rcases List.mem_cons.mp hm with rfl | hm
            · exact absurd h1 hp
            · exact ⟨hm, hp, hc⟩
        · rw [ih.2]
          constructor
          · rintro ⟨hm, hp, hc⟩; exact ⟨List.mem_cons_of_mem q hm, hp, hc⟩
          · rintro ⟨hm, hp, hc⟩
            rcases List.mem_cons.mp hm with rfl | hm
            · exact absurd h1 hp
            · exact ⟨hm, hp, hc⟩
      · rw [if_neg h1]
        by_cases h2 : (matches_allowlist q aPat || matches_global_allowlist g q) = true
        · rw [if_pos h2]
          constructor
          · simp only [ih.1]
            constructor
            · rintro ⟨hm, hp, hc⟩; exact ⟨List.mem_cons_of_mem q hm, hp, hc⟩
            · rintro ⟨hm, hp, hc⟩
              rcases List.mem_cons.mp hm with rfl | hm
              · rw [h2] at hc; exact Bool.noConfusion hc
              · exact ⟨hm, hp, hc⟩
          · simp only [List.mem_cons, ih.2]
            constructor
            · rintro (rfl | ⟨hm, hp, hc⟩)
              · exact ⟨Or.inl rfl, h1, h2⟩
              · exact ⟨Or.inr hm, hp, hc⟩
            · rintro ⟨rfl | hm, hp, hc⟩
              · exact Or.inl rfl
              · exact Or.inr ⟨hm, hp, hc⟩
        · rw [if_neg h2]
          rw [Bool.not_eq_true] at h2
          constructor
          · simp only [List.mem_cons, ih.1]
            constructor
            · rintro (rfl | ⟨hm, hp, hc⟩)
              · exact ⟨Or.inl rfl, h1, h2⟩
              · exact ⟨Or.inr hm, hp, hc⟩
            · rintro ⟨rfl | hm, hp, hc⟩
              · exact Or.inl rfl
              · exact Or.inr ⟨hm, hp, hc⟩
          · simp only [ih.2]
            constructor
            · rintro ⟨hm, hp, hc⟩; exact ⟨List.mem_cons_of_mem q hm, hp, hc⟩
            · rintro ⟨hm, hp, hc⟩
              rcases List.mem_cons.mp hm with rfl | hm
              · rw [h2] at hc; exact Bool.noConfusion hc
              · exact ⟨hm, hp, hc⟩
  have hglobal : (matches_global_allowlist g p = true) ↔
      ∃ pat ∈ g.global_allowlist_patterns, matches_allowlist p pat = true := by
    simp [matches_global_allowlist, List.any_eq_true]
  constructor
  · rw [(key current).1]
    simp only [Bool.or_eq_false_iff, and_congr_right_iff]
    intro _ _ _
    constructor
    · intro hg pat hpat
      rw [Bool.eq_false_iff]
      intro hmt
      rw [Bool.eq_false_iff] at hg
      exact hg (hglobal.mpr ⟨pat, hpat, hmt⟩)
    · intro hall
      rw [Bool.eq_false_iff]
      intro hgt
      obtain ⟨pat, hpat, hmt⟩ := hglobal.mp hgt
      rw [hall pat hpat] at hmt
      exact Bool.noConfusion hmt
  · rw [(key current).2]
    simp only [Bool.or_eq_true, hglobal]

/-- C9: merging an input manifest never overwrites an existing record (the
lookup after the merge returns the old record when one exists and a fresh
pending record exactly for manifest paths that were absent), and the merge
is idempotent. -/
theorem merge_input_no_overwrite_idempotent :
    (∀ (fs : Files) (input : List (Str × Json)) (p : Str),
       lookupFile (merge_input_file fs input) p =
         match lookupFile fs p with
         | some f => some f
         | none =>
             ((input.find? fun qd => decide (qd.1 = p)).map fun qd =>
               FileState.new qd.2)) ∧
    (∀ (fs : Files) (input : List (Str × Json)),
       merge_input_file (merge_input_file fs input) input = merge_input_file fs input) := by
  constructor
  · intro fs input p
    exact merge_input_file_lookup input fs p
  · intro fs input
    apply merge_input_file_all_present
    intro qd hqd
    rw [merge_input_file_lookup input fs qd.1]
    cases h : lookupFile fs qd.1 with
    | some f => simp
    | none =>
      cases hf : List.find? (fun qd1 => decide (qd1.1 = qd.1)) input with
      | none =>
        have := List.find?_eq_none.mp hf qd hqd
        simp at this
      | some x => simp [hf]

/-- C10: the state-store mutators update_status, set_result,
increment_attempts and set_error leave the whole file map unchanged when the
path is absent, and get_attempts returns 0 for an absent path. -/
theorem state_mutators_frame_on_missing_path (fs : Files) (p : Str)
    (h : lookupFile fs p = none) :
    (∀ st, update_status fs p st = fs) ∧
    (∀ r, set_result fs p r = fs) ∧
    increment_attempts fs p = fs ∧
    (∀ e, set_error fs p e = fs) ∧
    get_attempts fs p = 0 := by
  refine ⟨fun st => modifyFile_of_missing fs p _ h,
    fun r => modifyFile_of_missing fs p _ h,
    modifyFile_of_missing fs p _ h,
    fun e => modifyFile_of_missing fs p _ h, ?_⟩
  unfold get_attempts
  rw [h]
  rfl

/-- C10 witness: the frame theorem applied to a concrete one-record store
and an absent path. -/
theorem state_mutators_frame_on_missing_path_witness :
    update_status [("a".toList, FileState.new Json.null)] "b".toList FileStatus.completed
        = [("a".toList, FileState.new Json.null)] ∧
    get_attempts [("a".toList, FileState.new Json.null)] "b".toList = 0 := by
  have h := state_mutators_frame_on_missing_path
    [("a".toList, FileState.new Json.null)] "b".toList (by simp [lookupFile])
  exact ⟨h.1 FileStatus.completed, h.2.2.2.2⟩

/-- C1 counterexample: a run ending with its only record in
AwaitingVerification (a non-terminal status, neither Completed nor Failed)
still satisfies the completion check of main.rs, so markCompleted is called,
contradicting the claim. -/
theorem markCompleted_called_with_awaiting_verification :
    taskCompletionCheck [⟨FileStatus.awaitingVerification, Json.null, none, none, 0, none⟩]
        = true ∧
    (FileStatus.awaitingVerification ≠ FileStatus.completed ∧
      FileStatus.awaitingVerification ≠ FileStatus.failed) :=
  ⟨rfl, by decide, by decide⟩

/-- C1 amended: the registry entry is marked completed exactly when no
record remains Pending, PromptInProgress or VerifyInProgress; records in
AwaitingVerification or FixupInProgress do not block completion. -/
theorem taskCompletionCheck_iff (files : List FileState) :
    taskCompletionCheck files = true ↔
      ∀ f ∈ files,
        f.status ≠ FileStatus.pending ∧
        f.status ≠ FileStatus.promptInProgress ∧
        f.status ≠ FileStatus.verifyInProgress := by
  simp only [taskCompletionCheck, Bool.and_eq_true, beq_iff_eq]
  induction files with
  | nil => simp [get_summary]
  | cons f rest ih =>
    cases h : f.status <;>
      simp [get_summary, h, List.forall_mem_cons, ← ih]

/-- C2: the verify pool in runner.rs is spawned with the prompt-pool size
`config.concurrency`; for a config with concurrency 2 and
verify_concurrency Some 5, the code spawns 2 verify workers while the
documented size verify_concurrency.unwrap_or(concurrency) is 5. -/
theorem verify_pool_size_ignores_verify_concurrency :
    (runner_verify_handles ⟨2, some 5, 3⟩).length = 2 ∧
    Option.getD (ConfigM.mk 2 (some 5) 3).verify_concurrency
        (ConfigM.mk 2 (some 5) 3).concurrency = 5 ∧
    (2 : Nat) ≠ 5 :=
  ⟨by simp [runner_verify_handles, spawn_verify_pool_ids], rfl, by decide⟩

/-- C3: for source file src/utils/parser.test.ts with the single dirty entry
src/utils/parser.ts, commit_file_changes (using the raw unstripped stem
"parser.test") selects nothing, while the specified stripped-stem selection
stages exactly that entry; the commit message itself matches the specified
shape. -/
theorem commit_selection_unstripped_stem_divergence :
    commit_related_files "src/utils/parser.test.ts".toList ["src/utils/parser.ts".toList]
        = [] ∧
    commit_related_files_stripped "src/utils/parser.test.ts".toList
        ["src/utils/parser.ts".toList] = ["src/utils/parser.ts".toList] ∧
    commit_message "src/utils/parser.test.ts".toList none
        = "claude-loop: parser.test.ts".toList ∧
    commit_message "src/utils/parser.test.ts".toList (some "tpl".toList)
        = "claude-loop: parser.test.ts (tpl)".toList :=
  ⟨rfl, rfl, rfl, rfl⟩

/-- C4 counterexample: with maxRetries = 0, a single failing verify attempt
leaves the record with attempts = 1, exceeding maxRetries. -/
theorem attempts_exceeds_max_retries_at_zero :
    (runVerifyLoop 0 [VerifyOutcome.fail [] (FixupResult.fixErr [])]
        (FileState.new Json.null)).attempts = 1 ∧
    ¬((1 : Nat) ≤ 0) :=
  ⟨rfl, by decide⟩

/-- C4 amended: after any sequence of verify/fixup outcomes the attempts
counter is at most max maxRetries (attemptsAtEntry + 1); and a verify
failure while attempts equals maxRetries makes the record Failed (with one
final increment) before any further iteration, whatever outcomes follow. -/
theorem runVerifyLoop_attempts_bound_and_fail_at_limit :
    (∀ (mr : Nat) (outs : List VerifyOutcome) (f : FileState),
       (runVerifyLoop mr outs f).attempts ≤ max mr (f.attempts + 1)) ∧
    (∀ (mr : Nat) (err : Str) (fix : FixupResult) (rest : List VerifyOutcome)
       (f : FileState),
       (runVerifyLoop mr (VerifyOutcome.fail err fix :: rest)
           { f with attempts := mr }).status = FileStatus.failed ∧
       (runVerifyLoop mr (VerifyOutcome.fail err fix :: rest)
           { f with attempts := mr }).attempts = mr + 1) := by
  constructor
  · intro mr outs
    induction outs with
    | nil => intro f; exact le_trans (Nat.le_succ _) (le_max_right _ _)
    | cons o rest ih =>
      intro f
      cases o with
      | execError e =>
        simp only [runVerifyLoop]
        exact le_trans (Nat.le_succ _) (le_max_right _ _)
      | pass =>
        simp only [runVerifyLoop]
        exact le_trans (Nat.le_succ _) (le_max_right _ _)
      | fail err fix =>
        simp only [runVerifyLoop]
        split
        · exact le_max_right _ _
        · next hlt =>
          cases fix with
          | fixErr e => exact le_max_right _ _
          | fixOk r =>
            refine le_trans (ih _) ?_
            refine Nat.max_le.mpr ⟨le_max_left _ _, ?_⟩
            have h2 : f.attempts + 2 ≤ mr := by
              simp only [ge_iff_le, not_le] at hlt
              omega
            exact le_trans h2 (le_max_left _ _)
  · intro mr err fix rest f
    have key : runVerifyLoop mr (VerifyOutcome.fail err fix :: rest) { f with attempts := mr }
        = { f with status := FileStatus.failed, attempts := mr + 1, last_error := some err } := by
      simp only [runVerifyLoop]
      split
      · rfl
      · next h => exact absurd (Nat.le_succ mr) h
    rw [key]
    exact ⟨rfl, rfl⟩

/-- C5 counterexample: a task whose verify fails once and then passes runs
two verify iterations and one fixup, yet the worker trace contains a single
memory-pressure check, so the flag is not checked before every iteration. -/
theorem memCheck_not_before_every_iteration :
    verify_worker_task_trace 2
        [VerifyOutcome.fail [] (FixupResult.fixOk ⟨Json.null, false⟩), VerifyOutcome.pass] 0
      = [WEvent.memCheck, WEvent.verifyRun, WEvent.fixupRun, WEvent.verifyRun] ∧
    List.countP (fun e => decide (e = WEvent.memCheck))
        (verify_worker_task_trace 2
          [VerifyOutcome.fail [] (FixupResult.fixOk ⟨Json.null, false⟩), VerifyOutcome.pass] 0)
      = 1 ∧
    List.countP (fun e => decide (e = WEvent.verifyRun))
        (verify_worker_task_trace 2
          [VerifyOutcome.fail [] (FixupResult.fixOk ⟨Json.null, false⟩), VerifyOutcome.pass] 0)
      = 2 :=
  ⟨rfl, rfl, rfl⟩

/-- C5 amended: the memory-pressure flag is checked exactly once per task,
when the task is received and before the first verify iteration; it is never
re-checked inside the per-file verify/fixup loop. -/
theorem memCheck_once_per_task (mr : Nat) (outs : List VerifyOutcome) (a0 : Nat) :
    (verify_worker_task_trace mr outs a0).head? = some WEvent.memCheck ∧
    WEvent.memCheck ∉ verifyLoopTrace mr outs a0 :=
  ⟨rfl, memCheck_not_in_verifyLoopTrace mr outs a0⟩

end ClaudeLoop
